import Mathlib

/-!
Verification development for the `ezdb` package (`db.go`), a thin façade over
the levigo binding of LevelDB.

Modelling conventions:
* Go strings and `[]byte` values are byte sequences, embedded as `List Nat`
  (`Bytes`).  The conversions `string(v)` / `[]byte(s)` are identities.
* The external storage engine (levigo / LevelDB) is modelled as a key-sorted
  association list (`Store`): `Get` is lookup, `Put` is sorted insert/replace,
  `Delete` removes the key, and an iterator over the store enumerates the
  entries in key order, as LevelDB iterators do.  Engine reads in this pure
  model do not fail; the accessors `GetStr` / `KeyExist` are additionally
  factored through `getStrCore` / `keyExistCore`, explicit functions of the
  raw `(value, err)` pair returned by the byte-level `Get`, so that behaviour
  under engine read failures is also expressible.
* Go errors are represented by `Option String` (`none` = nil error); the
  sentinel message is `errKeyNotExists`.
-/

/-- Byte sequences: the common embedding of Go `[]byte` and `string`. -/
abbrev Bytes := List Nat

/-- The logical content of the LevelDB engine: entries sorted by key. -/
abbrev Store := List (Bytes × Bytes)

/-- Three-way byte-lexicographic comparison, the order Go's `<=` on strings
and LevelDB's default comparator both use. -/
def bytesCmp : Bytes → Bytes → Ordering
  | [], [] => Ordering.eq
  | [], _ :: _ => Ordering.lt
  | _ :: _, [] => Ordering.gt
  | a :: as, b :: bs =>
    if a < b then Ordering.lt
    else if b < a then Ordering.gt
    else bytesCmp as bs

/-- Strict byte-lexicographic order (Go `<` on strings). -/
def lexLt (a b : Bytes) : Bool :=
  match bytesCmp a b with
  | Ordering.lt => true
  | _ => false

/-- Byte-lexicographic order (Go `<=` on strings). -/
def lexLe (a b : Bytes) : Bool :=
  match bytesCmp a b with
  | Ordering.gt => false
  | _ => true

/-- Engine lookup: the value stored at `k`, `none` when absent
(levigo's `Get` returns a nil slice for an absent key). -/
def storeGet : Store → Bytes → Option Bytes
  | [], _ => none
  | (k', v') :: rest, k => if k = k' then some v' else storeGet rest k

/-- Engine write: insert or overwrite `k ↦ v`, keeping entries key-sorted. -/
def storePut : Store → Bytes → Bytes → Store
  | [], k, v => [(k, v)]
  | (k', v') :: rest, k, v =>
    if lexLt k k' then (k, v) :: (k', v') :: rest
    else if k = k' then (k, v) :: rest
    else (k', v') :: storePut rest k v

/-- Engine delete: remove the entry for `k` (first occurrence; keys are
unique in a sorted store). -/
def storeDelete : Store → Bytes → Store
  | [], _ => []
  | (k', v') :: rest, k => if k = k' then rest else (k', v') :: storeDelete rest k

/-- The store invariant maintained by the engine: keys strictly ascending. -/
def StoreSorted (s : Store) : Prop :=
  List.Pairwise (fun a b => lexLt a.1 b.1 = true) s

instance : DecidablePred StoreSorted := fun s =>
  inferInstanceAs (Decidable (List.Pairwise _ s))

/-- The sentinel message built by `errors.New(errKeyNotExists)` in `GetStr`. -/
def errKeyNotExists : String := "key does not exist"

/-- Error produced when a stored value fails to parse as an integer
(models the non-nil error of Go `strconv.ParseInt` / `ParseUint`). -/
def errParse : String := "parse error"

/-- `DB.Put`: direct passthrough to the engine write. -/
def DB.Put (st : Store) (key value : Bytes) : Store :=
  storePut st key value

/-- `DB.Get`: direct passthrough to the engine read; in the pure engine model
the returned error is nil. -/
def DB.Get (st : Store) (key : Bytes) : Option Bytes × Option String :=
  (storeGet st key, none)

/-- `DB.Delete`: direct passthrough to the engine delete. -/
def DB.Delete (st : Store) (key : Bytes) : Store :=
  storeDelete st key

/-- `DB.PutStr`: `Put` on the byte representations (identity here). -/
def DB.PutStr (st : Store) (key value : Bytes) : Store :=
  DB.Put st key value

/-- The body of `GetStr` as a function of the raw `(value, err)` pair that
the byte-level `Get` returned: `if v == nil { return "", errors.New(...) };
return string(v), err`. -/
def getStrCore (v : Option Bytes) (err : Option String) : Bytes × Option String :=
  match v with
  | none => ([], some errKeyNotExists)
  | some w => (w, err)

/-- The body of `KeyExist` as a function of the raw `(value, err)` pair:
`if err != nil { return false, err }; if v == nil { return false, nil };
return true, nil`. -/
def keyExistCore (v : Option Bytes) (err : Option String) : Bool × Option String :=
  match err with
  | some e => (false, some e)
  | none =>
    match v with
    | none => (false, none)
    | some _ => (true, none)

/-- `DB.GetStr` on the engine model. -/
def DB.GetStr (st : Store) (key : Bytes) : Bytes × Option String :=
  getStrCore (DB.Get st key).1 (DB.Get st key).2

/-- `DB.KeyExist` on the engine model. -/
def DB.KeyExist (st : Store) (key : Bytes) : Bool × Option String :=
  keyExistCore (DB.Get st key).1 (DB.Get st key).2

/-- `DB.DeleteStr`: `Delete` on the byte representation. -/
def DB.DeleteStr (st : Store) (key : Bytes) : Store :=
  DB.Delete st key

theorem storeGet_storePut_self (st : Store) (k v : Bytes) :
    storeGet (storePut st k v) k = some v := by
  induction st with
  | nil => simp [storePut, storeGet]
  | cons e rest ih =>
    obtain ⟨k', v'⟩ := e
    by_cases hlt : lexLt k k' = true
    · simp [storePut, hlt, storeGet]
    · by_cases heq : k = k'
      · subst heq
        simp [storePut, hlt, storeGet]
      · simp [storePut, hlt, heq, storeGet, ih]

/-- C1: for every key `k` and value `v`, `Put(k, v)` followed by `Get(k)` on
the same handle returns `v` with a nil error. -/
theorem put_get_roundtrip (st : Store) (k v : Bytes) :
    DB.Get (DB.Put st k v) k = (some v, none) := by
  simp [DB.Get, DB.Put, storeGet_storePut_self]

theorem bytesCmp_refl (a : Bytes) : bytesCmp a a = Ordering.eq := by
  induction a with
  | nil => rfl
  | cons x xs ih => simp [bytesCmp, ih]

theorem bytesCmp_swap (a b : Bytes) : bytesCmp b a = (bytesCmp a b).swap := by
  induction a generalizing b with
  | nil => cases b <;> rfl
  | cons x xs ih =>
    cases b with
    | nil => rfl
    | cons y ys =>
      simp only [bytesCmp]
      rcases Nat.lt_trichotomy x y with h | h | h
      · simp [h, Nat.lt_asymm h, Ordering.swap]
      · subst h
        simp [Nat.lt_irrefl, ih]
      · simp [h, Nat.lt_asymm h, Ordering.swap]

theorem bytesCmp_lt_trans (a b c : Bytes) (hab : bytesCmp a b = Ordering.lt)
    (hbc : bytesCmp b c ≠ Ordering.gt) : bytesCmp a c = Ordering.lt := by
  induction a generalizing b c with
  | nil =>
    cases b with
    | nil => simp [bytesCmp] at hab
    | cons y ys =>
      cases c with
      | nil => simp [bytesCmp] at hbc
      | cons z zs => rfl
  | cons x xs ih =>
    cases b with
    | nil => simp [bytesCmp] at hab
    | cons y ys =>
      cases c with
      | nil => simp [bytesCmp] at hbc
      | cons z zs =>
        simp only [bytesCmp] at hab hbc ⊢
        split_ifs at hab hbc ⊢ <;>
          first
            | rfl
            | omega
            | exact ih ys zs hab hbc
            | simp_all

theorem lexLt_iff (a b : Bytes) : lexLt a b = true ↔ bytesCmp a b = Ordering.lt := by
  unfold lexLt
  rcases h : bytesCmp a b <;> simp

theorem lexLe_iff (a b : Bytes) : lexLe a b = true ↔ bytesCmp a b ≠ Ordering.gt := by
  unfold lexLe
  rcases h : bytesCmp a b <;> simp

theorem lexLt_ne (a b : Bytes) (h : lexLt a b = true) : a ≠ b := by
  intro heq
  subst heq
  simp [lexLt, bytesCmp_refl] at h

theorem lexLe_eq_not_lexLt (a b : Bytes) : lexLe b a = !lexLt a b := by
  unfold lexLe lexLt
  rw [bytesCmp_swap a b]
  cases bytesCmp a b <;> rfl

theorem lexLt_trans (a b c : Bytes) (hab : lexLt a b = true) (hbc : lexLt b c = true) :
    lexLt a c = true := by
  rw [lexLt_iff] at hab hbc ⊢
  exact bytesCmp_lt_trans a b c hab (by rw [hbc]; simp)

theorem lexLt_le_le (a b c : Bytes) (hab : lexLt a b = true) (hbc : lexLe b c = true) :
    lexLe a c = true := by
  rw [lexLt_iff] at hab
  rw [lexLe_iff] at hbc ⊢
  rw [bytesCmp_lt_trans a b c hab hbc]
  simp

theorem storeGet_eq_none_of_forall (st : Store) (k : Bytes)
    (h : ∀ e ∈ st, k ≠ e.1) : storeGet st k = none := by
  induction st with
  | nil => rfl
  | cons e rest ih =>
    obtain ⟨k', v'⟩ := e
    have hne : k ≠ k' := h (k', v') (List.mem_cons_self _ _)
    simp only [storeGet, if_neg hne]
    exact ih fun e he => h e (List.mem_cons_of_mem _ he)

theorem storeGet_storeDelete_self (st : Store) (k : Bytes) (hs : StoreSorted st) :
    storeGet (storeDelete st k) k = none := by
  induction st with
  | nil => rfl
  | cons e rest ih =>
    obtain ⟨k', v'⟩ := e
    rw [StoreSorted, List.pairwise_cons] at hs
    by_cases heq : k = k'
    · subst heq
      simp only [storeDelete, if_pos rfl]
      exact storeGet_eq_none_of_forall rest k fun e he =>
        lexLt_ne _ _ (hs.1 e he)
    · simp only [storeDelete, if_neg heq, storeGet, if_neg heq]
      exact ih hs.2

/-- C4 counterexample: when the byte-level `Get` fails (levigo then returns a
nil value alongside the error), `GetStr` returns the key-not-found sentinel,
not the engine's error: the claimed verbatim pass-through fails at
`(v, err) = (nil, "io error")`. -/
theorem getStr_error_passthrough_cex :
    ¬ (getStrCore none (some "io error")).2 = some "io error" := by
  simp [getStrCore, errKeyNotExists]

/-- C4 amended: `GetStr` returns the underlying read error only when the raw
`Get` also returned a non-nil value; whenever the value is nil — which is
what levigo produces on every failed read — `GetStr` returns the
key-not-found sentinel instead, so a read failure is reported as
key-not-found. -/
theorem getStr_error_amended :
    (∀ w err, getStrCore (some w) err = (w, err)) ∧
    (∀ err, getStrCore none err = ([], some errKeyNotExists)) :=
  ⟨fun _ _ => rfl, fun _ => rfl⟩

/-- C5: `KeyExist` returns `(false, nil)` when the lookup yields no value,
`(true, nil)` when any value is returned — including the empty value written
by `Put(k, []byte{})` — and propagates the underlying read error when the
lookup fails. -/
theorem keyExist_spec :
    (∀ v e, keyExistCore v (some e) = (false, some e)) ∧
    (∀ st k, DB.KeyExist st k = ((storeGet st k).isSome, none)) ∧
    (∀ st k, DB.KeyExist (DB.Put st k []) k = (true, none)) := by
  refine ⟨fun v e => rfl, fun st k => ?_, fun st k => ?_⟩
  · cases h : storeGet st k <;> simp [DB.KeyExist, DB.Get, keyExistCore, h]
  · simp [DB.KeyExist, DB.Get, DB.Put, storeGet_storePut_self, keyExistCore]

/-- C6: on an absent key — never put, or removed by `Delete` — `GetStr`
returns the key-not-found sentinel rather than an empty-string success, and
after `Delete(k)` (on a key-sorted store) `KeyExist(k)` is `(false, nil)`. -/
theorem absent_key_spec (st : Store) (k : Bytes) (hs : StoreSorted st) :
    (storeGet st k = none → DB.GetStr st k = ([], some errKeyNotExists)) ∧
    DB.GetStr (DB.Delete st k) k = ([], some errKeyNotExists) ∧
    DB.KeyExist (DB.Delete st k) k = (false, none) := by
  have hd := storeGet_storeDelete_self st k hs
  refine ⟨fun h => ?_, ?_, ?_⟩
  · simp [DB.GetStr, DB.Get, getStrCore, h]
  · simp [DB.GetStr, DB.Get, DB.Delete, getStrCore, hd]
  · simp [DB.KeyExist, DB.Get, DB.Delete, keyExistCore, hd]

theorem absent_key_spec_witness :
    StoreSorted [([97], [1])] ∧
    ((storeGet [([97], [1])] [98] = none →
        DB.GetStr [([97], [1])] [98] = ([], some errKeyNotExists)) ∧
      DB.GetStr (DB.Delete [([97], [1])] [98]) [98] = ([], some errKeyNotExists) ∧
      DB.KeyExist (DB.Delete [([97], [1])] [98]) [98] = (false, none)) :=
  ⟨by decide, absent_key_spec [([97], [1])] [98] (by decide)⟩

/-- The key under the iterator cursor (`it.Key()`).  An iterator over the
sorted store is the list of entries at and after the cursor. -/
def iterKey : List (Bytes × Bytes) → Bytes
  | [] => []
  | e :: _ => e.1

/-- `it.Valid()`: the cursor is positioned at an entry. -/
def iterValid (it : List (Bytes × Bytes)) : Bool :=
  !it.isEmpty

/-- Source `IsIteratorValidForGoThrough`: `if keyEnd != "" { return
it.Valid() && string(it.Key()) <= keyEnd }; return it.Valid()`. -/
def IsIteratorValidForGoThrough (it : List (Bytes × Bytes)) (keyEnd : Bytes) : Bool :=
  if keyEnd ≠ [] then iterValid it && lexLe (iterKey it) keyEnd
  else iterValid it

/-- The `for` loop of `GoThrough`: returns the `(key, value)` pairs the
processor was invoked on, in order, paired with the returned error (nil on
natural exit, or the processor's first error). -/
def goThroughLoop (p : Bytes → Bytes → Option String) (keyEnd : Bytes) :
    List (Bytes × Bytes) → List (Bytes × Bytes) × Option String
  | [] => ([], none)
  | (k, v) :: rest =>
    if IsIteratorValidForGoThrough ((k, v) :: rest) keyEnd then
      match p k v with
      | some e => ([(k, v)], some e)
      | none =>
        let r := goThroughLoop p keyEnd rest
        ((k, v) :: r.1, r.2)
    else ([], none)

/-- `DB.GoThrough`: seek to `keyStart` when non-empty (a LevelDB `Seek`
positions at the first key ≥ the target, i.e. drops the keys below
`keyStart`), else seek to the first entry; then run the loop.  The iterator's
terminal error state (`it.GetError()`) is nil in the pure engine model, so
the result is the loop's outcome. -/
def DB.GoThrough (st : Store) (keyStart keyEnd : Bytes)
    (p : Bytes → Bytes → Option String) : List (Bytes × Bytes) × Option String :=
  let it := if keyStart ≠ [] then st.dropWhile (fun e => lexLt e.1 keyStart) else st
  goThroughLoop p keyEnd it

theorem takeWhile_eq_filter_of_pairwise {α : Type} (R : α → α → Prop) (q : α → Bool)
    (l : List α) (hl : List.Pairwise R l)
    (hq : ∀ a b, R a b → q b = true → q a = true) :
    l.takeWhile q = l.filter q := by
  induction l with
  | nil => rfl
  | cons a t ih =>
    rw [List.pairwise_cons] at hl
    by_cases ha : q a = true
    · rw [List.takeWhile_cons_of_pos ha, List.filter_cons_of_pos ha, ih hl.2]
    · rw [List.takeWhile_cons_of_neg (by simp [ha]), List.filter_cons_of_neg (by simp [ha])]
      have ht : ∀ b ∈ t, ¬ q b = true := fun b hb hqb => ha (hq a b (hl.1 b hb) hqb)
      exact (List.filter_eq_nil_iff.mpr ht).symm

theorem dropWhile_eq_filter_of_pairwise {α : Type} (R : α → α → Prop) (q : α → Bool)
    (l : List α) (hl : List.Pairwise R l)
    (hq : ∀ a b, R a b → q b = true → q a = true) :
    l.dropWhile q = l.filter (fun a => !q a) := by
  induction l with
  | nil => rfl
  | cons a t ih =>
    rw [List.pairwise_cons] at hl
    by_cases ha : q a = true
    · rw [List.dropWhile_cons_of_pos ha, List.filter_cons_of_neg (by simp [ha]), ih hl.2]
    · rw [List.dropWhile_cons_of_neg (by simp [ha]), List.filter_cons_of_pos (by simp [ha])]
      have ht : ∀ b ∈ t, q b = false := fun b hb => by
        cases hqb : q b
        · rfl
        · exact absurd (hq a b (hl.1 b hb) hqb) ha
      rw [List.filter_eq_self.mpr fun b hb => by simp [ht b hb]]

theorem isIteratorValid_cons (k : Bytes) (v : Bytes) (rest : List (Bytes × Bytes))
    (ke : Bytes) :
    IsIteratorValidForGoThrough ((k, v) :: rest) ke = (ke.isEmpty || lexLe k ke) := by
  cases ke with
  | nil => simp [IsIteratorValidForGoThrough, iterValid]
  | cons a as => simp [IsIteratorValidForGoThrough, iterValid, iterKey]

theorem goThroughLoop_all_none (p : Bytes → Bytes → Option String) (ke : Bytes)
    (hp : ∀ k v, p k v = none) (ents : List (Bytes × Bytes)) :
    goThroughLoop p ke ents =
      (ents.takeWhile (fun e => ke.isEmpty || lexLe e.1 ke), none) := by
  induction ents with
  | nil => rfl
  | cons e rest ih =>
    obtain ⟨k, v⟩ := e
    simp only [goThroughLoop, isIteratorValid_cons]
    by_cases hc : (ke.isEmpty || lexLe k ke) = true
    · rw [if_pos hc, hp k v]
      simp [List.takeWhile_cons, hc, ih]
    · rw [if_neg hc]
      simp [List.takeWhile_cons, hc]

theorem lexLe_nil_left (b : Bytes) : lexLe [] b = true := by
  cases b <;> rfl

/-- C2: with a processor that never errs, `GoThrough(keyStart, keyEnd, p)`
invokes `p` exactly once per stored key `k` with `keyStart ≤ k` (`lexLe []
k` always holds, so an empty `keyStart` bounds nothing) and, unless `keyEnd`
is empty, `k ≤ keyEnd`, in ascending byte-lexicographic key order, and
returns a nil error. -/
theorem goThrough_range_spec (st : Store) (ks ke : Bytes)
    (p : Bytes → Bytes → Option String)
    (hs : StoreSorted st) (hp : ∀ k v, p k v = none) :
    DB.GoThrough st ks ke p =
      (st.filter (fun e => lexLe ks e.1 && (ke.isEmpty || lexLe e.1 ke)), none) ∧
    List.Pairwise (fun a b => lexLt a.1 b.1 = true) (DB.GoThrough st ks ke p).1 := by
  have hq : ∀ a b : Bytes × Bytes, lexLt a.1 b.1 = true →
      (ke.isEmpty || lexLe b.1 ke) = true → (ke.isEmpty || lexLe a.1 ke) = true := by
    intro a b hab hqb
    by_cases hke : ke.isEmpty = true
    · simp [hke]
    · simp only [hke, Bool.false_or] at hqb ⊢
      exact lexLt_le_le _ _ _ hab hqb
  have hs' : List.Pairwise (fun a b : Bytes × Bytes => lexLt a.1 b.1 = true) st := hs
  have key : DB.GoThrough st ks ke p =
      (st.filter (fun e => lexLe ks e.1 && (ke.isEmpty || lexLe e.1 ke)), none) := by
    unfold DB.GoThrough
    by_cases hks : ks = []
    · rw [if_neg (by simp [hks])]
      rw [goThroughLoop_all_none p ke hp st]
      rw [takeWhile_eq_filter_of_pairwise (fun a b => lexLt a.1 b.1 = true) _ st hs' hq]
      subst hks
      refine congrArg (fun l => (l, none)) (List.filter_congr fun x hx => ?_)
      simp [lexLe_nil_left]
    · rw [if_pos hks]
      rw [goThroughLoop_all_none p ke hp _]
      have hpw : List.Pairwise (fun a b : Bytes × Bytes => lexLt a.1 b.1 = true)
          (st.dropWhile (fun e => lexLt e.1 ks)) :=
        List.Pairwise.sublist (List.dropWhile_sublist _) hs'
      rw [takeWhile_eq_filter_of_pairwise (fun a b => lexLt a.1 b.1 = true) _ _ hpw hq]
      rw [dropWhile_eq_filter_of_pairwise (fun a b => lexLt a.1 b.1 = true) _ st hs'
        (fun a b hab hqb => lexLt_trans _ _ _ hab hqb)]
      rw [List.filter_filter]
      refine congrArg (fun l => (l, none)) (List.filter_congr fun x hx => ?_)
      rw [lexLe_eq_not_lexLt x.1 ks]
      exact Bool.and_comm _ _
  refine ⟨key, ?_⟩
  rw [key]
  exact List.Pairwise.sublist (List.filter_sublist _) hs'

/-- A five-key demonstration store with keys a, b, c, d, e. -/
def demoStore : Store :=
  [([97], [10]), ([98], [11]), ([99], [12]), ([100], [13]), ([101], [14])]

theorem goThrough_range_spec_witness :
    StoreSorted demoStore ∧
    (DB.GoThrough demoStore [98] [100] (fun _ _ => none) =
        (demoStore.filter
          (fun e => lexLe [98] e.1 && (List.isEmpty [100] || lexLe e.1 [100])), none) ∧
      List.Pairwise (fun a b => lexLt a.1 b.1 = true)
        (DB.GoThrough demoStore [98] [100] (fun _ _ => none)).1) ∧
    (DB.GoThrough demoStore [98] [100] (fun _ _ => none)).1 =
      [([98], [11]), ([99], [12]), ([100], [13])] ∧
    (DB.GoThrough demoStore [] [] (fun _ _ => none)).1 = demoStore :=
  ⟨by decide,
   goThrough_range_spec demoStore [98] [100] (fun _ _ => none) (by decide) (fun _ _ => rfl),
   by decide, by decide⟩

theorem goThroughLoop_error_cases (p : Bytes → Bytes → Option String) (ke : Bytes)
    (ents : List (Bytes × Bytes)) :
    (∀ e, (goThroughLoop p ke ents).2 = some e →
      ∃ pre kv, (goThroughLoop p ke ents).1 = pre ++ [kv] ∧
        (∀ x ∈ pre, p x.1 x.2 = none) ∧ p kv.1 kv.2 = some e) ∧
    ((goThroughLoop p ke ents).2 = none →
      ∀ x ∈ (goThroughLoop p ke ents).1, p x.1 x.2 = none) := by
  induction ents with
  | nil => exact ⟨fun e he => by simp [goThroughLoop] at he, fun _ x hx => by
      simp [goThroughLoop] at hx⟩
  | cons a rest ih =>
    obtain ⟨k, v⟩ := a
    simp only [goThroughLoop]
    by_cases hc : IsIteratorValidForGoThrough ((k, v) :: rest) ke = true
    · rw [if_pos hc]
      cases hp : p k v with
      | some e0 =>
        refine ⟨fun e he => ?_, fun hn => ?_⟩
        · simp only at he
          refine ⟨[], (k, v), by simp, by simp, ?_⟩
          rw [hp]
          exact congrArg some (by injection he)
        · simp only at hn
          exact absurd hn (by simp)
      | none =>
        refine ⟨fun e he => ?_, fun hn x hx => ?_⟩
        · simp only at he
          obtain ⟨pre, kv, h1, h2, h3⟩ := ih.1 e he
          refine ⟨(k, v) :: pre, kv, by simp [h1], ?_, h3⟩
          intro x hx
          rcases List.mem_cons.mp hx with h | h
          · subst h
            exact hp
          · exact h2 x h
        · simp only at hn hx
          rcases List.mem_cons.mp hx with h | h
          · subst h
            exact hp
          · exact ih.2 hn x h
    · rw [if_neg hc]
      exact ⟨fun e he => by simp at he, fun _ x hx => by simp at hx⟩

/-- C3: if the processor errs on some invocation, `GoThrough` returns exactly
that error, the erring invocation is the last one (no later entry is
processed), and all earlier invocations returned nil; conversely a nil
result means no invocation erred. -/
theorem goThrough_error_spec (st : Store) (ks ke : Bytes)
    (p : Bytes → Bytes → Option String) :
    (∀ e, (DB.GoThrough st ks ke p).2 = some e →
      ∃ pre kv, (DB.GoThrough st ks ke p).1 = pre ++ [kv] ∧
        (∀ x ∈ pre, p x.1 x.2 = none) ∧ p kv.1 kv.2 = some e) ∧
    ((DB.GoThrough st ks ke p).2 = none →
      ∀ x ∈ (DB.GoThrough st ks ke p).1, p x.1 x.2 = none) := by
  unfold DB.GoThrough
  exact goThroughLoop_error_cases p ke _

/-- A three-key demonstration store. -/
def demoStoreB : Store := [([97], [10]), ([98], [11]), ([99], [12])]

/-- A processor that errs exactly on key b (its second invocation when
scanning `demoStoreB` from the start). -/
def demoProcB : Bytes → Bytes → Option String :=
  fun k _ => if k = [98] then some "boom" else none

theorem goThrough_error_spec_witness :
    (DB.GoThrough demoStoreB [] [] demoProcB).2 = some "boom" ∧
    (DB.GoThrough demoStoreB [] [] demoProcB).1 = [([97], [10]), ([98], [11])] ∧
    ∃ pre kv, (DB.GoThrough demoStoreB [] [] demoProcB).1 = pre ++ [kv] ∧
      (∀ x ∈ pre, demoProcB x.1 x.2 = none) ∧ demoProcB kv.1 kv.2 = some "boom" :=
  ⟨by decide, by decide,
   (goThrough_error_spec demoStoreB [] [] demoProcB).1 "boom" (by decide)⟩

/-- Modelled from Go `strconv.FormatUint(_, 10)`: the digit loop of
`formatBits` (repeated division by 10, emitting ASCII digits most
significant first), with explicit fuel; `n + 1` divisions always suffice. -/
def fmtLoop : Nat → Nat → List Nat → List Nat
  | 0, _, acc => acc
  | fuel + 1, n, acc => if n = 0 then acc else fmtLoop fuel (n / 10) ((n % 10 + 48) :: acc)

/-- Go `strconv.FormatUint(n, 10)`: base-10 ASCII encoding of `n`. -/
def formatUintGo (n : Nat) : Bytes :=
  if n = 0 then [48] else fmtLoop (n + 1) n []

/-- Go `strconv.FormatInt(n, 10)`: a leading minus sign (byte 45) for
negative values, then the base-10 encoding of the magnitude. -/
def formatIntGo (n : Int) : Bytes :=
  if n < 0 then 45 :: formatUintGo n.natAbs else formatUintGo n.toNat

/-- Accumulating base-10 digit parser: fails on any byte outside ASCII
0-9, as Go `strconv`'s digit loop does with `ErrSyntax`. -/
def parseDigitsAux : Nat → Bytes → Option Nat
  | acc, [] => some acc
  | acc, c :: rest =>
    if 48 ≤ c ∧ c ≤ 57 then parseDigitsAux (acc * 10 + (c - 48)) rest else none

/-- Digit-string parser: empty input is a syntax error. -/
def parseDigits (s : Bytes) : Option Nat :=
  if s.isEmpty then none else parseDigitsAux 0 s

/-- Go `strconv.ParseUint(s, 10, 64)`: digits only (no sign), value must fit
in 64 bits; `none` models a non-nil syntax or range error. -/
def parseUintGo (s : Bytes) : Option Nat :=
  match parseDigits s with
  | none => none
  | some v => if v < 2 ^ 64 then some v else none

/-- The unsigned phase of Go `strconv.ParseInt(s, 10, 64)` after the sign is
stripped: cutoff `1 << 63`, reached only by the most negative value. -/
def parseIntCore (neg : Bool) (digits : Bytes) : Option Int :=
  match parseDigits digits with
  | none => none
  | some v =>
    match neg with
    | true => if v ≤ 2 ^ 63 then some (-(v : Int)) else none
    | false => if v < 2 ^ 63 then some (v : Int) else none

/-- Go `strconv.ParseInt(s, 10, 64)`: optional leading `-` (45) or `+` (43),
then digits, with the signed 64-bit range check. -/
def parseIntGo : Bytes → Option Int
  | [] => none
  | c :: rest =>
    if c = 45 then parseIntCore true rest
    else if c = 43 then parseIntCore false rest
    else parseIntCore false (c :: rest)

/-- `DB.PutInt64`: store the base-10 string encoding via `PutStr`. -/
def DB.PutInt64 (st : Store) (key : Bytes) (value : Int) : Store :=
  DB.PutStr st key (formatIntGo value)

/-- `DB.GetInt64`: `GetStr`, propagate its error, else parse as int64. -/
def DB.GetInt64 (st : Store) (key : Bytes) : Int × Option String :=
  match DB.GetStr st key with
  | (_, some e) => (0, some e)
  | (s, none) =>
    match parseIntGo s with
    | some v => (v, none)
    | none => (0, some errParse)

/-- `DB.PutUint64`: store the base-10 string encoding via `PutStr`. -/
def DB.PutUint64 (st : Store) (key : Bytes) (value : Nat) : Store :=
  DB.PutStr st key (formatUintGo value)

/-- `DB.GetUint64`: `GetStr`, propagate its error, else parse as uint64. -/
def DB.GetUint64 (st : Store) (key : Bytes) : Nat × Option String :=
  match DB.GetStr st key with
  | (_, some e) => (0, some e)
  | (s, none) =>
    match parseUintGo s with
    | some v => (v, none)
    | none => (0, some errParse)

theorem fmtLoop_eq (f : Nat) : ∀ (n : Nat) (acc : List Nat), n < f →
    fmtLoop f n acc = ((Nat.digits 10 n).map (fun d => d + 48)).reverse ++ acc := by
  induction f with
  | zero => intro n acc h; omega
  | succ f ih =>
    intro n acc h
    by_cases h0 : n = 0
    · subst h0
      simp [fmtLoop]
    · rw [fmtLoop, if_neg h0]
      have hdiv : n / 10 < f := by
        have h1 : n / 10 < n := Nat.div_lt_self (Nat.pos_of_ne_zero h0) (by omega)
        omega
      rw [ih (n / 10) _ hdiv]
      rw [Nat.digits_def' (by omega : (1 : Nat) < 10) (Nat.pos_of_ne_zero h0)]
      simp

theorem parseDigitsAux_valid (l : Bytes) : ∀ acc : Nat, (∀ c ∈ l, 48 ≤ c ∧ c ≤ 57) →
    parseDigitsAux acc l = some (l.foldl (fun a c => a * 10 + (c - 48)) acc) := by
  induction l with
  | nil => intro acc _; rfl
  | cons c t ih =>
    intro acc h
    have hc := h c (List.mem_cons_self _ _)
    rw [parseDigitsAux, if_pos hc, List.foldl_cons]
    exact ih _ fun x hx => h x (List.mem_cons_of_mem _ hx)

theorem foldl_reverse_digits (L : List Nat) : ∀ acc : Nat,
    L.reverse.foldl (fun a d => a * 10 + d) acc = acc * 10 ^ L.length + Nat.ofDigits 10 L := by
  induction L with
  | nil => intro acc; simp [Nat.ofDigits]
  | cons d ds ih =>
    intro acc
    rw [List.reverse_cons, List.foldl_append, ih acc]
    simp only [List.foldl_cons, List.foldl_nil, List.length_cons, Nat.ofDigits_cons]
    ring

theorem parseDigits_formatUintGo (n : Nat) : parseDigits (formatUintGo n) = some n := by
  by_cases h0 : n = 0
  · subst h0
    rfl
  · have hfmt : formatUintGo n = ((Nat.digits 10 n).map (fun d => d + 48)).reverse := by
      rw [formatUintGo, if_neg h0, fmtLoop_eq (n + 1) n [] (by omega)]
      simp
    have hne : Nat.digits 10 n ≠ [] := Nat.digits_ne_nil_iff_ne_zero.mpr h0
    have hvalid : ∀ c ∈ ((Nat.digits 10 n).map (fun d => d + 48)).reverse,
        48 ≤ c ∧ c ≤ 57 := by
      intro c hc
      rw [List.mem_reverse, List.mem_map] at hc
      obtain ⟨d, hd, rfl⟩ := hc
      have := Nat.digits_lt_base (by omega) hd
      omega
    rw [hfmt, parseDigits, if_neg (by simp [hne])]
    rw [parseDigitsAux_valid _ 0 hvalid]
    rw [← List.map_reverse, List.foldl_map]
    simp only [Nat.add_sub_cancel]
    rw [foldl_reverse_digits]
    simp [Nat.ofDigits_digits]

theorem formatUintGo_head_digit (n : Nat) :
    ∃ c t, formatUintGo n = c :: t ∧ 48 ≤ c ∧ c ≤ 57 := by
  by_cases h0 : n = 0
  · exact ⟨48, [], by subst h0; rfl, by omega, by omega⟩
  · have hfmt : formatUintGo n = ((Nat.digits 10 n).map (fun d => d + 48)).reverse := by
      rw [formatUintGo, if_neg h0, fmtLoop_eq (n + 1) n [] (by omega)]
      simp
    have hne : ((Nat.digits 10 n).map (fun d => d + 48)).reverse ≠ [] := by
      simp [Nat.digits_ne_nil_iff_ne_zero.mpr h0]
    obtain ⟨c, t, hct⟩ := List.exists_cons_of_ne_nil hne
    refine ⟨c, t, by rw [hfmt, hct], ?_⟩
    have hc : c ∈ ((Nat.digits 10 n).map (fun d => d + 48)).reverse := by
      rw [hct]
      exact List.mem_cons_self _ _
    rw [List.mem_reverse, List.mem_map] at hc
    obtain ⟨d, hd, rfl⟩ := hc
    have := Nat.digits_lt_base (by omega) hd
    omega

/-- C7: for every int64 `n`, `PutInt64(k, n)` then `GetInt64(k)` returns `n`
with a nil error, and for every uint64 `m`, `PutUint64(k, m)` then
`GetUint64(k)` returns `m` (values stored as base-10 string encodings). -/
theorem int64_roundtrip_spec (st : Store) (k : Bytes) :
    (∀ n : Int, -(2 ^ 63) ≤ n → n < 2 ^ 63 →
      DB.GetInt64 (DB.PutInt64 st k n) k = (n, none)) ∧
    (∀ m : Nat, m < 2 ^ 64 →
      DB.GetUint64 (DB.PutUint64 st k m) k = (m, none)) := by
  have hget : ∀ s, DB.GetStr (DB.PutStr st k s) k = (s, none) := fun s => by
    simp [DB.GetStr, DB.Get, DB.PutStr, DB.Put, storeGet_storePut_self, getStrCore]
  constructor
  · intro n h1 h2
    by_cases hneg : n < 0
    · simp only [DB.GetInt64, DB.PutInt64, hget]
      have hfmt : formatIntGo n = 45 :: formatUintGo n.natAbs := by
        rw [formatIntGo, if_pos hneg]
      rw [hfmt]
      simp only [parseIntGo, if_true]
      simp only [parseIntCore, parseDigits_formatUintGo]
      have habs : n.natAbs ≤ 2 ^ 63 := by omega
      rw [if_pos habs]
      have hval : -((n.natAbs : Int)) = n := by omega
      rw [hval]
    · simp only [DB.GetInt64, DB.PutInt64, hget]
      have hfmt : formatIntGo n = formatUintGo n.toNat := by
        rw [formatIntGo, if_neg hneg]
      rw [hfmt]
      obtain ⟨c, t, hct, hc1, hc2⟩ := formatUintGo_head_digit n.toNat
      rw [hct]
      simp only [parseIntGo]
      rw [if_neg (by omega), if_neg (by omega), ← hct]
      simp only [parseIntCore, parseDigits_formatUintGo]
      have hlt : n.toNat < 2 ^ 63 := by omega
      rw [if_pos hlt]
      have hval : ((n.toNat : Int)) = n := by omega
      rw [hval]
  · intro m hm
    simp only [DB.GetUint64, DB.PutUint64, hget, parseUintGo, parseDigits_formatUintGo]
    rw [if_pos hm]

theorem int64_roundtrip_spec_witness :
    (-(2 ^ 63) : Int) ≤ -42 ∧ (-42 : Int) < 2 ^ 63 ∧ (12345 : Nat) < 2 ^ 64 ∧
    DB.GetInt64 (DB.PutInt64 [] [107] (-42)) [107] = (-42, none) ∧
    DB.GetUint64 (DB.PutUint64 [] [107] 12345) [107] = (12345, none) :=
  ⟨by norm_num, by norm_num, by norm_num,
   (int64_roundtrip_spec [] [107]).1 (-42) (by norm_num) (by norm_num),
   (int64_roundtrip_spec [] [107]).2 12345 (by norm_num)⟩

/-- The resource fields of the `DB` handle.  Each field wraps a C-level
resource pointer; `some ()` models a non-nil pointer, `none` a nil one. -/
structure DB where
  LevigoDB : Option Unit
  ro : Option Unit
  roIt : Option Unit
  wo : Option Unit
  cache : Option Unit
  deriving DecidableEq

/-- One release call performed during `Close`, named by the field released. -/
inductive CloseEvent where
  | roIt
  | ro
  | wo
  | levigoDB
  | cache
  deriving DecidableEq

/-- `DB.Close` as the sequence of release calls it performs: nothing on a
nil handle; otherwise each non-nil resource is closed, in source order
(iterator read-options, point read-options, write-options, engine, cache —
the cache strictly after the engine, per the source comment about the
shutdown hang). -/
def DB.Close : Option DB → List CloseEvent
  | none => []
  | some db =>
    (if db.roIt.isSome then [CloseEvent.roIt] else []) ++
    (if db.ro.isSome then [CloseEvent.ro] else []) ++
    (if db.wo.isSome then [CloseEvent.wo] else []) ++
    (if db.LevigoDB.isSome then [CloseEvent.levigoDB] else []) ++
    (if db.cache.isSome then [CloseEvent.cache] else [])

/-- Whether the resource a close event would release is non-nil in `db`. -/
def closeEventPresent (db : DB) : CloseEvent → Bool
  | CloseEvent.roIt => db.roIt.isSome
  | CloseEvent.ro => db.ro.isSome
  | CloseEvent.wo => db.wo.isSome
  | CloseEvent.levigoDB => db.LevigoDB.isSome
  | CloseEvent.cache => db.cache.isSome

/-- Two successive `Close` calls on the same handle.  The Go method never
clears the handle's fields, so the second call sees the same field values
and re-runs the same release sequence. -/
def closeTwice (h : Option DB) : List CloseEvent :=
  DB.Close h ++ DB.Close h

/-- A fully opened handle: every resource non-nil, as built by a successful
`Open`. -/
def fullDB : DB :=
  { LevigoDB := some (), ro := some (), roIt := some (), wo := some (), cache := some () }

/-- The environment responses `Open` depends on: whether
`levigo.NewLRUCache` returns a non-nil cache, the error of `os.MkdirAll`,
and the error of `levigo.Open`. -/
structure OpenEnv where
  cacheOk : Bool
  mkdirErr : Option String
  engineErr : Option String

/-- `Open(dbPath, cacheSize)`: fail with a fresh error if the cache
allocation returns nil, pass through the directory-creation error, pass
through the engine-open error, and otherwise return the fully initialised
handle; every failure path returns a nil handle. -/
def Open (env : OpenEnv) : Option DB × Option String :=
  if env.cacheOk = false then (none, some "levigo.NewLRUCache() == nil")
  else
    match env.mkdirErr with
    | some e => (none, some e)
    | none =>
      match env.engineErr with
      | some e => (none, some e)
      | none => (some fullDB, none)

/-- C8: `Close` is a no-op on a nil handle; on a non-nil handle it performs,
out of the sequence iterator-read-options, point-read-options,
write-options, engine, cache, exactly the releases whose resource is
non-nil, in exactly that order — so the cache is always released strictly
last. -/
theorem close_order_spec :
    DB.Close none = [] ∧
    ∀ d : DB, DB.Close (some d) =
      [CloseEvent.roIt, CloseEvent.ro, CloseEvent.wo, CloseEvent.levigoDB,
        CloseEvent.cache].filter (closeEventPresent d) := by
  refine ⟨rfl, fun d => ?_⟩
  obtain ⟨l, ro, roIt, wo, c⟩ := d
  rcases l with _ | ⟨⟩ <;> rcases ro with _ | ⟨⟩ <;> rcases roIt with _ | ⟨⟩ <;>
    rcases wo with _ | ⟨⟩ <;> rcases c with _ | ⟨⟩ <;> rfl

/-- C9 counterexample: on a fully opened handle, a second `Close` call is
not equivalent to having called `Close` once — the fields are never
cleared, so every resource is released a second time. -/
theorem close_idempotent_cex :
    ¬ closeTwice (some fullDB) = DB.Close (some fullDB) := by
  decide

/-- C9 amended: `Close` is only idempotent on a nil handle (where it is a
no-op), and every `Open` failure path yields a nil handle, so `Close` —
repeated or not — is safe after a failed `Open`; on a non-nil handle a
second `Close` re-releases every non-nil resource instead of being a
no-op. -/
theorem close_idempotent_amended :
    DB.Close none = [] ∧
    closeTwice none = DB.Close none ∧
    ∀ env : OpenEnv, (Open env).2.isSome = true →
      closeTwice (Open env).1 = DB.Close (Open env).1 := by
  refine ⟨rfl, rfl, fun env h => ?_⟩
  obtain ⟨cOk, mErr, eErr⟩ := env
  cases cOk <;> cases mErr <;> cases eErr <;> simp_all [Open, closeTwice, DB.Close]

theorem close_idempotent_amended_witness :
    (Open { cacheOk := false, mkdirErr := none, engineErr := none }).2.isSome = true ∧
    closeTwice (Open { cacheOk := false, mkdirErr := none, engineErr := none }).1 =
      DB.Close (Open { cacheOk := false, mkdirErr := none, engineErr := none }).1 :=
  ⟨rfl, close_idempotent_amended.2.2
    { cacheOk := false, mkdirErr := none, engineErr := none } rfl⟩

/-- C10: every failure path of `Open` (cache allocation, directory creation,
engine open) returns a nil handle together with a non-nil error, and those
are the only failures; on success the handle is non-nil and the error nil.
A non-nil handle is never paired with a non-nil error. -/
theorem open_failure_spec :
    ∀ env : OpenEnv,
      (((Open env).1 = none ∧ (Open env).2.isSome = true) ∨
        ((Open env).1.isSome = true ∧ (Open env).2 = none)) ∧
      ((Open env).2.isSome = true ↔
        (env.cacheOk = false ∨ env.mkdirErr.isSome = true ∨ env.engineErr.isSome = true)) := by
  intro env
  obtain ⟨cOk, mErr, eErr⟩ := env
  cases cOk <;> cases mErr <;> cases eErr <;> simp [Open]
